import Mathlib

/-!
Shallow embedding of the validate-generator signing/verification core
(src/utils.c, src/sign.c, src/validate.c) and proofs about it.

Byte strings are modelled as `List Nat`; C strings (NUL-terminated,
NUL-free) as `List Char` where they are compared character-wise, or as
`List Nat` where their raw bytes enter a blob.  Fallible C functions that
return a value plus a `GError**` out-parameter are modelled as `Except`:
`.error e` corresponds to returning the failure value with the error set,
`.ok v` to a successful return with no error.
-/

/-- `S_IFMT`-masked file type value for a regular file (Linux `S_IFREG`). -/
def S_IFREG : Nat := 0o100000

/-- `S_IFMT`-masked file type value for a symbolic link (Linux `S_IFLNK`). -/
def S_IFLNK : Nat := 0o120000

/-- `S_IFMT`-masked file type value for a directory (Linux `S_IFDIR`). -/
def S_IFDIR : Nat := 0o040000

/-- Modelled from the spec: the constant `VALIDATOR_SIGNATURE_MAGIC` is
defined in a header that is not under src/; the spec fixes only that it is
a fixed constant byte sequence of fixed known length which the signer
prepends to the raw signature and which the verifier checks and strips.
The concrete bytes below are a stand-in; no theorem depends on their
values, only on the sequence being one fixed constant. -/
def VALIDATOR_SIGNATURE_MAGIC : List Nat := [0x76, 0x2d, 0x73, 0x69, 0x67]

/-- Length of the magic marker (`VALIDATOR_SIGNATURE_MAGIC_LEN`). -/
def VALIDATOR_SIGNATURE_MAGIC_LEN : Nat := VALIDATOR_SIGNATURE_MAGIC.length

/-- Error kinds observable through the `GError**` out-parameters of the
embedded functions (collapsing the GLib error domains to what the claims
distinguish). -/
inductive VErr where
  /-- `G_FILE_ERROR_INVAL` with message "Invalid signature". -/
  | invalidSig : VErr
  /-- `G_FILE_ERROR_INVAL` with message "Unsupported file type". -/
  | unsupportedType : VErr
  /-- an OpenSSL context/engine failure reported via `fail_ssl`. -/
  | engine : VErr
deriving DecidableEq, Repr

/-- Embedding of `make_sign_blob` (src/utils.c:172-199).  The C code
writes one tag byte (0 for `S_IFREG`, 1 for `S_IFLNK`, error otherwise),
then `memcpy`s the `rel_path` bytes, writes a 0 byte, and `memcpy`s the
content bytes into a freshly allocated buffer of exactly that size. -/
def make_sign_blob (rel_path : List Nat) (type : Nat) (content : List Nat) :
    Option (List Nat) :=
  if type = S_IFREG then
    some (0 :: (rel_path ++ 0 :: content))
  else if type = S_IFLNK then
    some (1 :: (rel_path ++ 0 :: content))
  else
    none


/-- A private key (`EVP_PKEY` used for signing) together with the
behaviour of the OpenSSL engine at each fallible call site of
`sign_data`.  `sign` is the deterministic raw output of
`EVP_DigestSign` over a message; the Boolean fields record whether the
corresponding engine call fails (returns NULL / 0) for this key. -/
structure PrivKey where
  /-- `EVP_MD_CTX_new` returns NULL. -/
  ctxFails : Bool
  /-- `EVP_DigestSignInit` returns 0. -/
  initFails : Bool
  /-- the sizing call `EVP_DigestSign(ctx, NULL, ...)` returns 0. -/
  sizeFails : Bool
  /-- the signing call `EVP_DigestSign(ctx, buf, ...)` returns 0. -/
  signFails : Bool
  /-- raw signature bytes produced over a message. -/
  sign : List Nat → List Nat

/-- A trusted public key (`EVP_PKEY`) together with the behaviour of the
OpenSSL engine at each fallible call site of `validate_data`'s key loop.
`verify sig msg` is the return value of `EVP_DigestVerify`:
1 = signature valid, 0 = signature mismatch, anything else = hard
engine error. -/
structure PubKey where
  /-- `EVP_MD_CTX_new` returns NULL during this key's trial. -/
  ctxFails : Bool
  /-- `EVP_DigestVerifyInit` returns 0 for this key. -/
  initFails : Bool
  /-- return value of `EVP_DigestVerify` on (signature bytes, message). -/
  verify : List Nat → List Nat → Int

/-- Embedding of `sign_data` (src/utils.c:370-402): build the blob, set
up a digest-sign context, size the signature, then emit
`VALIDATOR_SIGNATURE_MAGIC ++ raw signature`.  `.error e` models
returning FALSE with the `GError` set. -/
def sign_data (type : Nat) (rel_path : List Nat) (content : List Nat)
    (pkey : PrivKey) : Except VErr (List Nat) :=
  match make_sign_blob rel_path type content with
  | none => .error .unsupportedType
  | some to_sign =>
    if pkey.ctxFails then .error .engine
    else if pkey.initFails then .error .engine
    else if pkey.sizeFails then .error .engine
    else if pkey.signFails then .error .engine
    else .ok (VALIDATOR_SIGNATURE_MAGIC ++ pkey.sign to_sign)

/-- The key-trial loop of `validate_data` (src/utils.c:227-248): try each
trusted key in list order against the stripped signature body and the
rebuilt blob; stop with `.ok true` on the first key whose
`EVP_DigestVerify` returns 1, keep going on 0, and fail hard on a
context/init failure or any other return value. -/
def validate_keys_loop (sig_body to_sign : List Nat) :
    List PubKey → Except VErr Bool
  | [] => .ok false
  | key :: rest =>
    if key.ctxFails then .error .engine
    else if key.initFails then .error .engine
    else
      let res := key.verify sig_body to_sign
      if res = 1 then .ok true
      else if res ≠ 0 then .error .engine
      else validate_keys_loop sig_body to_sign rest

/-- Embedding of `validate_data` (src/utils.c:201-251): check length and
magic prefix of the envelope, strip the magic, rebuild the blob with
`make_sign_blob`, and run the key-trial loop. -/
def validate_data (rel_path : List Nat) (type : Nat) (content : List Nat)
    (sig : List Nat) (pub_keys : List PubKey) : Except VErr Bool :=
  if sig.length < VALIDATOR_SIGNATURE_MAGIC_LEN
      ∨ sig.take VALIDATOR_SIGNATURE_MAGIC_LEN ≠ VALIDATOR_SIGNATURE_MAGIC then
    .error .invalidSig
  else
    let sig_body := sig.drop VALIDATOR_SIGNATURE_MAGIC_LEN
    match make_sign_blob rel_path type content with
    | none => .error .unsupportedType
    | some to_sign => validate_keys_loop sig_body to_sign pub_keys

/-- Failure classes of `load_pub_key` / `g_dir_open` as distinguished by
`load_pub_keys_from_dir` (the `G_FILE_ERROR` codes it pattern-matches,
plus a bucket for every other code). -/
inductive LoadErr where
  /-- `G_FILE_ERROR_NOENT`. -/
  | noent : LoadErr
  /-- `G_FILE_ERROR_ISDIR`. -/
  | isdir : LoadErr
  /-- `G_FILE_ERROR_INVAL` — `PEM_read_PUBKEY` could not parse the file. -/
  | inval : LoadErr
  /-- any other `G_FILE_ERROR` code (e.g. `EACCES` from `fopen`). -/
  | acces : LoadErr
deriving DecidableEq, Repr

/-- Abstract parsed public key identity for the key-store embedding. -/
structure PK where
  keyId : Nat
deriving DecidableEq, Repr

/-- The enumeration loop of `load_pub_keys_from_dir`
(src/utils.c:146-168): for each directory entry in enumeration order,
`load_pub_key` either yields a key, which is `g_list_prepend`-ed onto the
accumulator, or fails; `NOENT` and `ISDIR` failures are skipped, any
other failure is propagated and aborts the whole load.  `entries` is the
directory's contents in enumeration order, each entry given by the
outcome of `load_pub_key` on it; `keys` is the accumulated GList. -/
def load_keys_loop : List (Except LoadErr PK) → List PK → Except LoadErr (List PK)
  | [], keys => .ok keys
  | entry :: rest, keys =>
    match entry with
    | .ok pkey => load_keys_loop rest (pkey :: keys)
    | .error .noent => load_keys_loop rest keys
    | .error .isdir => load_keys_loop rest keys
    | .error e => .error e

/-- Embedding of `load_pub_keys_from_dir` (src/utils.c:127-170).  The
directory itself is `dir`: `.error e` when `g_dir_open` fails with `e`,
otherwise the list of entry outcomes in enumeration order.  A `NOENT`
open failure yields the empty key list and success; any other open
failure is propagated. -/
def load_pub_keys_from_dir (dir : Except LoadErr (List (Except LoadErr PK))) :
    Except LoadErr (List PK) :=
  match dir with
  | .error .noent => .ok []
  | .error e => .error e
  | .ok entries => load_keys_loop entries []

/-- The keys accepted by the enumeration loop, in enumeration order
(specification-side helper for C6/C7): the `.ok` payloads of `entries`
in order. -/
def accepted_keys (entries : List (Except LoadErr PK)) : List PK :=
  entries.foldr (fun e acc => match e with | .ok k => k :: acc | .error _ => acc) []

/-- Whether some entry outcome is a failure other than NOENT/ISDIR. -/
def has_fatal_entry (entries : List (Except LoadErr PK)) : Bool :=
  entries.any fun e =>
    match e with
    | .ok _ => false
    | .error .noent => false
    | .error .isdir => false
    | .error _ => true

/-- The `while (*s == '/') s++;` slash-skipping step of
`has_path_prefix` (src/utils.c:411-414). -/
def dropSlashes : List Char → List Char
  | [] => []
  | c :: r => if c = '/' then dropSlashes r else c :: r

/-- The inner segment-comparison loop of `has_path_prefix`
(src/utils.c:421-427): compare characters of `str` and the pattern while
the pattern character is neither NUL nor a slash; `none` models hitting
`return FALSE` on a mismatch (including `str` running out), `some`
returns both remainders when the pattern segment is exhausted. -/
def matchSeg : List Char → List Char → Option (List Char × List Char)
  | s, [] => some (s, [])
  | s, c :: p =>
    if c = '/' then some (s, c :: p)
    else
      match s with
      | [] => none
      | d :: s' => if d = c then matchSeg s' p else none

theorem matchSeg_length_le :
    ∀ p s s' p', matchSeg s p = some (s', p') → p'.length ≤ p.length := by
  intro p
  induction p with
  | nil =>
    intro s s' p' h
    simp only [matchSeg, Option.some.injEq, Prod.mk.injEq] at h
    simp [← h.2]
  | cons c q ih =>
    intro s s' p' h
    cases s with
    | nil =>
      rw [matchSeg.eq_2] at h
      by_cases hc : c = '/'
      · rw [if_pos hc] at h
        simp only [Option.some.injEq, Prod.mk.injEq] at h
        simp [← h.2]
      · rw [if_neg hc] at h
        simp at h
    | cons d s2 =>
      by_cases hc : c = '/'
      · simp only [matchSeg, if_pos hc, Option.some.injEq, Prod.mk.injEq] at h
        simp [← h.2]
      · simp only [matchSeg, if_neg hc] at h
        by_cases hd : d = c
        · rw [if_pos hd] at h
          have := ih s2 s' p' h
          simp only [List.length_cons]
          omega
        · rw [if_neg hd] at h
          simp at h

theorem matchSeg_length_lt {c : Char} (hc : c ≠ '/') :
    ∀ q s s' p', matchSeg s (c :: q) = some (s', p') → p'.length < q.length + 1 := by
  intro q s s' p' h
  cases s with
  | nil => simp [matchSeg, hc] at h
  | cons d s2 =>
    simp only [matchSeg, if_neg hc] at h
    by_cases hd : d = c
    · rw [if_pos hd] at h
      have := matchSeg_length_le q s2 s' p' h
      omega
    · rw [if_neg hd] at h
      simp at h

theorem dropSlashes_length_le : ∀ l : List Char, (dropSlashes l).length ≤ l.length := by
  intro l
  induction l with
  | nil => simp [dropSlashes]
  | cons c r ih =>
    simp only [dropSlashes]
    by_cases hc : c = '/'
    · rw [if_pos hc]; simp only [List.length_cons]; omega
    · rw [if_neg hc]

theorem dropSlashes_head_ne {l : List Char} {c : Char} {p : List Char}
    (h : dropSlashes l = c :: p) : c ≠ '/' := by
  induction l with
  | nil => simp [dropSlashes] at h
  | cons d r ih =>
    simp only [dropSlashes] at h
    by_cases hd : d = '/'
    · rw [if_pos hd] at h; exact ih h
    · rw [if_neg hd] at h
      cases h
      exact hd

/-- Embedding of `has_path_prefix` (src/utils.c:404-434).  One iteration
of the outer `while (TRUE)` loop: skip consecutive slashes on both
sides; if the pattern is exhausted, succeed; otherwise match one pattern
segment character-by-character against `str` (failing on any mismatch),
then require the matched `str` portion to end exactly at a slash or at
the end of `str`, and loop. -/
def has_path_prefix (str pfx : List Char) : Bool :=
  match hp : dropSlashes pfx with
  | [] => true
  | c :: p =>
    match hm : matchSeg (dropSlashes str) (c :: p) with
    | none => false
    | some (s', p') =>
      match s' with
      | [] => has_path_prefix [] p'
      | e :: t => if e = '/' then has_path_prefix (e :: t) p' else false
termination_by pfx.length
decreasing_by
  · have h1 : p'.length < p.length + 1 := matchSeg_length_lt (dropSlashes_head_ne hp) p _ _ _ hm
    have h2 : (dropSlashes pfx).length ≤ pfx.length := dropSlashes_length_le pfx
    rw [hp] at h2
    simp only [List.length_cons] at h2
    omega
  · have h1 : p'.length < p.length + 1 := matchSeg_length_lt (dropSlashes_head_ne hp) p _ _ _ hm
    have h2 : (dropSlashes pfx).length ≤ pfx.length := dropSlashes_length_le pfx
    rw [hp] at h2
    simp only [List.length_cons] at h2
    omega

/-- Specification-side helper: the first path segment of a character
list (the characters before the first slash). -/
def segHead : List Char → List Char
  | [] => []
  | c :: r => if c = '/' then [] else c :: segHead r

/-- Specification-side helper: the remainder of a character list from
its first slash on (empty when there is no slash). -/
def segAfter : List Char → List Char
  | [] => []
  | c :: r => if c = '/' then c :: r else segAfter r

theorem segAfter_length_le : ∀ l : List Char, (segAfter l).length ≤ l.length := by
  intro l
  induction l with
  | nil => simp [segAfter]
  | cons c r ih =>
    simp only [segAfter]
    by_cases hc : c = '/'
    · rw [if_pos hc]
    · rw [if_neg hc]
      simp only [List.length_cons]
      omega

/-- Specification-side definition, following the spec's words: the list
of path segments of a path, ignoring repeated (and leading/trailing)
slashes. -/
def segments : List Char → List (List Char)
  | [] => []
  | c :: r =>
    if c = '/' then segments r
    else (c :: segHead r) :: segments (segAfter r)
termination_by l => l.length
decreasing_by
  · simp only [List.length_cons]
    omega
  · have := segAfter_length_le r
    simp only [List.length_cons]
    omega

/-- Specification-side definition, following the spec's words: every
segment of the first list matches a whole corresponding segment of the
second list, in order. -/
def leadsOf : List (List Char) → List (List Char) → Bool
  | [], _ => true
  | _ :: _, [] => false
  | a :: as, b :: bs => a == b && leadsOf as bs

/-- Specification-side predicate for C5: `str` lies under `pfx` by
path-segment comparison. -/
def pathUnderSegments (str pfx : List Char) : Bool :=
  leadsOf (segments pfx) (segments str)

/-- Outcome of `g_dir_open` on a directory entry (src/sign.c:87-94 and
src/validate.c:88-96): success, failure with `G_FILE_ERROR_NOENT` (the
directory vanished between `lstat` and the open), or any other
failure. -/
inductive DirOpen where
  | ok : DirOpen
  | noent : DirOpen
  | err : DirOpen
deriving DecidableEq, Repr

/-- A filesystem node as classified by the walk's `lstat` + `S_IFMT`
switch.  `missing` models a path whose `lstat` fails (src/sign.c:31-36);
`dir o children` models a directory whose `g_dir_open` outcome is `o`
and whose enumeration yields `children` (name/node pairs) in
directory-listing order. -/
inductive FSEntry where
  | regular : FSEntry
  | symlink : FSEntry
  | dir : DirOpen → List (List Char × FSEntry) → FSEntry
  | other : FSEntry
  | missing : FSEntry

/-- `g_str_has_suffix (child, ".sig")` (src/sign.c:99,
src/validate.c:101). -/
def hasSigSuffix (name : List Char) : Bool :=
  ['.', 's', 'i', 'g'].isSuffixOf name

/-- Embedding of the recursive walk shared verbatim by `sign`
(src/sign.c:24-114) and `validate` (src/validate.c:24-116): the two C
functions differ only in the per-leaf action (signing vs. verifying),
which performs I/O and crypto and is abstracted here as the parameter
`leaf`, giving the success of processing the leaf at a path (a path is a
list of name segments).  The walk returns the aggregate Boolean result
together with the list of leaf paths on which the leaf action was
attempted.  A regular file or symlink runs the leaf action; a directory
whose open fails with NOENT yields success, any other open failure
yields failure; an open directory folds over its children in order,
skipping names with the `.sig` suffix, recursing into the rest, and
recording a failed child in `success` without stopping; `other` and
`missing` nodes are failures. -/
def walk (leaf : List (List Char) → Bool) :
    List (List Char) → FSEntry → Bool × List (List (List Char))
  | path, .regular => (leaf path, [path])
  | path, .symlink => (leaf path, [path])
  | _, .dir .noent _ => (true, [])
  | _, .dir .err _ => (false, [])
  | path, .dir .ok children => walkChildren leaf path children
  | _, .other => (false, [])
  | _, .missing => (false, [])
where
  /-- The `while ((child = g_dir_read_name (dir)))` loop
  (src/sign.c:96-105, src/validate.c:98-107). -/
  walkChildren (leaf : List (List Char) → Bool) (path : List (List Char)) :
      List (List Char × FSEntry) → Bool × List (List (List Char))
  | [] => (true, [])
  | (name, child) :: rest =>
    if hasSigSuffix name then walkChildren leaf path rest
    else
      let r := walk leaf (path ++ [name]) child
      let r2 := walkChildren leaf path rest
      (r.1 && r2.1, r.2 ++ r2.2)

/-- Whether `g_file_test (path, G_FILE_TEST_IS_DIR)` holds of a node
(src/sign.c:131, src/validate.c:133). -/
def isDirNode : FSEntry → Bool
  | .dir _ _ => true
  | _ => false

/-- Embedding of the root-argument loop of `cmd_sign`
(src/sign.c:116-152) and `cmd_validate` (src/validate.c:118-154): each
root argument in turn is walked; a directory argument in non-recursive
mode makes the command return `EXIT_FAILURE` immediately, aborting the
remaining arguments; otherwise a failed root is recorded in `res` and
the loop continues.  Returns overall success plus attempted leaf
paths. -/
def cmd_walk (recursive : Bool) (leaf : List (List Char) → Bool) :
    List (List Char × FSEntry) → Bool × List (List (List Char))
  | [] => (true, [])
  | (name, entry) :: rest =>
    if isDirNode entry && !recursive then (false, [])
    else
      let r := walk leaf [name] entry
      let r2 := cmd_walk recursive leaf rest
      (r.1 && r2.1, r.2 ++ r2.2)

/-- Helper for relating `matchSeg` to list structure: strip a literal
segment `a` from the front of `s`. -/
def dropSeg : List Char → List Char → Option (List Char)
  | [], s => some s
  | _ :: _, [] => none
  | c :: a, d :: s => if d = c then dropSeg a s else none

theorem segHead_append_segAfter : ∀ l : List Char, segHead l ++ segAfter l = l := by
  intro l
  induction l with
  | nil => simp [segHead, segAfter]
  | cons c r ih =>
    by_cases hc : c = '/'
    · simp [segHead, segAfter, hc]
    · simp only [segHead, segAfter, if_neg hc, List.cons_append, ih]

theorem segHead_slash_free : ∀ l : List Char, ∀ x ∈ segHead l, x ≠ '/' := by
  intro l
  induction l with
  | nil => simp [segHead]
  | cons c r ih =>
    by_cases hc : c = '/'
    · simp [segHead, hc]
    · simp only [segHead, if_neg hc]
      intro x hx
      rcases List.mem_cons.mp hx with h | h
      · simpa [h] using hc
      · exact ih x h

theorem segAfter_shape :
    ∀ l : List Char, segAfter l = [] ∨ ∃ r, segAfter l = '/' :: r := by
  intro l
  induction l with
  | nil => simp [segAfter]
  | cons c r ih =>
    by_cases hc : c = '/'
    · right
      exact ⟨r, by simp [segAfter, hc]⟩
    · simpa [segAfter, if_neg hc] using ih

/-- `segHead`/`segAfter` of a slash-free block followed by a slash-led
(or empty) remainder. -/
theorem segHead_segAfter_of_append :
    ∀ a t : List Char, (∀ x ∈ a, x ≠ '/') → (t = [] ∨ ∃ r, t = '/' :: r) →
      segHead (a ++ t) = a ∧ segAfter (a ++ t) = t := by
  intro a
  induction a with
  | nil =>
    intro t ha ht
    rcases ht with ht | ⟨r, ht⟩
    · simp [ht, segHead, segAfter]
    · simp [ht, segHead, segAfter]
  | cons c a' ih =>
    intro t ha ht
    have hc : c ≠ '/' := ha c (List.mem_cons_self c a')
    have ha' : ∀ x ∈ a', x ≠ '/' := fun x hx => ha x (List.mem_cons_of_mem c hx)
    have := ih t ha' ht
    simp only [List.cons_append, segHead, segAfter, if_neg hc, List.append_eq]
    exact ⟨by rw [this.1], this.2⟩

theorem segments_cons_slash (r : List Char) : segments ('/' :: r) = segments r := by
  rw [segments]
  simp

theorem segments_cons_of_ne {c : Char} (hc : c ≠ '/') (r : List Char) :
    segments (c :: r) = (c :: segHead r) :: segments (segAfter r) := by
  rw [segments]
  simp [hc]

/-- `segments` of a nonempty slash-free block followed by a slash-led
(or empty) remainder. -/
theorem segments_append_seg {a t : List Char} (hne : a ≠ [])
    (ha : ∀ x ∈ a, x ≠ '/') (ht : t = [] ∨ ∃ r, t = '/' :: r) :
    segments (a ++ t) = a :: segments t := by
  match a, hne with
  | c :: a', _ =>
    have hc : c ≠ '/' := ha c (List.mem_cons_self c a')
    have ha' : ∀ x ∈ a', x ≠ '/' := fun x hx => ha x (List.mem_cons_of_mem c hx)
    have hdec := segHead_segAfter_of_append a' t ha' ht
    rw [List.cons_append, segments_cons_of_ne hc, hdec.1, hdec.2]

theorem segments_dropSlashes : ∀ l : List Char, segments (dropSlashes l) = segments l := by
  intro l
  induction l with
  | nil => simp [dropSlashes]
  | cons c r ih =>
    by_cases hc : c = '/'
    · rw [dropSlashes, if_pos hc, ih, hc, segments_cons_slash]
    · rw [dropSlashes, if_neg hc]

theorem dropSlashes_shape (l : List Char) :
    dropSlashes l = [] ∨ ∃ c p, dropSlashes l = c :: p ∧ c ≠ '/' := by
  match h : dropSlashes l with
  | [] => exact Or.inl rfl
  | c :: p => exact Or.inr ⟨c, p, rfl, dropSlashes_head_ne h⟩

theorem matchSeg_slash (s r : List Char) :
    matchSeg s ('/' :: r) = some (s, '/' :: r) := by
  cases s with
  | nil => simp [matchSeg]
  | cons d s2 => simp [matchSeg]

/-- `matchSeg` against a pattern decomposed into a slash-free segment
and a slash-led (or empty) remainder walks exactly `dropSeg` of the
segment. -/
theorem matchSeg_append :
    ∀ a s t : List Char, (∀ x ∈ a, x ≠ '/') → (t = [] ∨ ∃ r, t = '/' :: r) →
      matchSeg s (a ++ t) =
        match dropSeg a s with
        | none => none
        | some s' => some (s', t) := by
  intro a
  induction a with
  | nil =>
    intro s t ha ht
    rcases ht with ht | ⟨r, ht⟩
    · subst ht
      simp [matchSeg, dropSeg]
    · subst ht
      simp [matchSeg_slash, dropSeg]
  | cons c a' ih =>
    intro s t ha ht
    have hc : c ≠ '/' := ha c (List.mem_cons_self c a')
    have ha' : ∀ x ∈ a', x ≠ '/' := fun x hx => ha x (List.mem_cons_of_mem c hx)
    cases s with
    | nil =>
      rw [List.cons_append, matchSeg.eq_2, if_neg hc]
      simp [dropSeg]
    | cons d s2 =>
      rw [List.cons_append]
      simp only [matchSeg, if_neg hc]
      by_cases hd : d = c
      · rw [if_pos hd]
        rw [ih s2 t ha' ht]
        simp only [dropSeg, if_pos hd]
      · rw [if_neg hd]
        simp [dropSeg, if_neg hd]

theorem dropSeg_self : ∀ a t : List Char, dropSeg a (a ++ t) = some t := by
  intro a t
  induction a with
  | nil => simp [dropSeg]
  | cons c a' ih => simp [dropSeg, ih]

/-- If a literal strip of `a` from `s` succeeds, `s = a ++ rest`. -/
theorem dropSeg_eq_some :
    ∀ a s s' : List Char, dropSeg a s = some s' → s = a ++ s' := by
  intro a
  induction a with
  | nil =>
    intro s s' h
    simp only [dropSeg, Option.some.injEq] at h
    simp [h]
  | cons c a' ih =>
    intro s s' h
    cases s with
    | nil => simp [dropSeg] at h
    | cons d s2 =>
      simp only [dropSeg] at h
      by_cases hd : d = c
      · rw [if_pos hd] at h
        rw [hd, List.cons_append, ih s2 s' h]
      · rw [if_neg hd] at h
        simp at h

theorem hpp_nil_case (str pfx : List Char) (hP : dropSlashes pfx = []) :
    has_path_prefix str pfx = true := by
  rw [ has_path_prefix.eq_def]
  split
  · rfl
  · next c2 p2 h =>
    rw [hP] at h
    cases h

theorem hpp_none_case (str pfx : List Char) (c : Char) (p : List Char)
    (hP : dropSlashes pfx = c :: p)
    (hM : matchSeg (dropSlashes str) (c :: p) = none) :
    has_path_prefix str pfx = false := by
  rw [ has_path_prefix.eq_def]
  split
  · next h => rw [hP] at h; cases h
  · next c2 p2 h =>
    rw [hP] at h
    cases h
    split
    · rfl
    · next s' p' hm => rw [hM] at hm; cases hm

theorem hpp_some_nil (str pfx : List Char) (c : Char) (p p' : List Char)
    (hP : dropSlashes pfx = c :: p)
    (hM : matchSeg (dropSlashes str) (c :: p) = some ([], p')) :
    has_path_prefix str pfx = has_path_prefix [] p' := by
  rw [ has_path_prefix.eq_def]
  split
  · next h => rw [hP] at h; cases h
  · next c2 p2 h =>
    rw [hP] at h
    cases h
    split
    · next hm => rw [hM] at hm; cases hm
    · next s2 p2 hm =>
      rw [hM] at hm
      cases hm
      rfl

theorem hpp_some_slash (str pfx : List Char) (c : Char) (p t p' : List Char)
    (hP : dropSlashes pfx = c :: p)
    (hM : matchSeg (dropSlashes str) (c :: p) = some ('/' :: t, p')) :
    has_path_prefix str pfx = has_path_prefix ('/' :: t) p' := by
  rw [ has_path_prefix.eq_def]
  split
  · next h => rw [hP] at h; cases h
  · next c2 p2 h =>
    rw [hP] at h
    cases h
    split
    · next hm => rw [hM] at hm; cases hm
    · next s2 p2 hm =>
      rw [hM] at hm
      cases hm
      simp

theorem hpp_some_other (str pfx : List Char) (c e : Char) (p t p' : List Char)
    (he : e ≠ '/')
    (hP : dropSlashes pfx = c :: p)
    (hM : matchSeg (dropSlashes str) (c :: p) = some (e :: t, p')) :
    has_path_prefix str pfx = false := by
  rw [ has_path_prefix.eq_def]
  split
  · next h => rw [hP] at h; cases h
  · next c2 p2 h =>
    rw [hP] at h
    cases h
    split
    · next hm => rw [hM] at hm
    · next s2 p2 hm =>
      rw [hM] at hm
      cases hm
      simp [he]

/-- Two slash-free blocks followed by slashes agree iff the whole lists
agree. -/
theorem slash_free_append_inj :
    ∀ a b u w : List Char, (∀ x ∈ a, x ≠ '/') → (∀ x ∈ b, x ≠ '/') →
      a ++ '/' :: u = b ++ '/' :: w → a = b ∧ u = w := by
  intro a
  induction a with
  | nil =>
    intro b u w _ hb h
    cases b with
    | nil => simpa using h
    | cons y b' =>
      simp only [List.nil_append, List.cons_append, List.cons.injEq] at h
      exact absurd h.1.symm (hb y (List.mem_cons_self y b'))
  | cons x a' ih =>
    intro b u w ha hb h
    cases b with
    | nil =>
      simp only [List.cons_append, List.nil_append, List.cons.injEq] at h
      exact absurd h.1 (ha x (List.mem_cons_self x a'))
    | cons y b' =>
      simp only [List.cons_append, List.cons.injEq] at h
      have ha' : ∀ z ∈ a', z ≠ '/' := fun z hz => ha z (List.mem_cons_of_mem x hz)
      have hb' : ∀ z ∈ b', z ≠ '/' := fun z hz => hb z (List.mem_cons_of_mem y hz)
      have := ih b' u w ha' hb' h.2
      exact ⟨by rw [h.1, this.1], this.2⟩

/-- Key equivalence for C5: the character-walking loop of
`has_path_prefix` computes exactly in-order whole-segment comparison of
the two paths. -/
theorem hpp_eq_leadsOf :
    ∀ (n : Nat) (pfx str : List Char), pfx.length ≤ n →
      has_path_prefix str pfx = leadsOf (segments pfx) (segments str) := by
  intro n
  induction n with
  | zero =>
    intro pfx str hlen
    have hpfx : pfx = [] := by
      cases pfx with
      | nil => rfl
      | cons c r => simp at hlen
    subst hpfx
    rw [hpp_nil_case str [] rfl]
    rw [show segments [] = [] from by rw [segments]]
    rfl
  | succ n ih =>
    intro pfx str hlen
    rcases dropSlashes_shape pfx with hP | ⟨c, p, hP, hc⟩
    · rw [hpp_nil_case str pfx hP]
      rw [← segments_dropSlashes pfx, hP]
      rw [show segments [] = [] from by rw [segments]]
      rfl
    · have hsegP : segments pfx = (c :: segHead p) :: segments (segAfter p) := by
        rw [← segments_dropSlashes pfx, hP, segments_cons_of_ne hc]
      have hApfree : ∀ x ∈ c :: segHead p, x ≠ '/' := by
        intro x hx
        rcases List.mem_cons.mp hx with h | h
        · subst h; exact hc
        · exact segHead_slash_free p x h
      have hTshape := segAfter_shape p
      have hsplit : (c :: segHead p) ++ segAfter p = c :: p := by
        rw [List.cons_append, segHead_append_segAfter]
      have hlenT : (segAfter p).length ≤ n := by
        have h1 := segAfter_length_le p
        have h2 := dropSlashes_length_le pfx
        rw [hP] at h2
        simp only [List.length_cons] at h2
        omega
      have hmatch : matchSeg (dropSlashes str) (c :: p) =
          match dropSeg (c :: segHead p) (dropSlashes str) with
          | none => none
          | some s'' => some (s'', segAfter p) := by
        rw [← hsplit]
        exact matchSeg_append _ _ _ hApfree hTshape
      rcases dropSlashes_shape str with hS | ⟨d, s, hS, hd⟩
      · have hm : matchSeg (dropSlashes str) (c :: p) = none := by
          rw [hmatch, hS]
          rfl
        rw [hpp_none_case str pfx c p hP hm, hsegP]
        rw [← segments_dropSlashes str, hS]
        rw [show segments [] = [] from by rw [segments]]
        rfl
      · have hsegS : segments str = (d :: segHead s) :: segments (segAfter s) := by
          rw [← segments_dropSlashes str, hS, segments_cons_of_ne hd]
        have hAsfree : ∀ x ∈ d :: segHead s, x ≠ '/' := by
          intro x hx
          rcases List.mem_cons.mp hx with h | h
          · subst h; exact hd
          · exact segHead_slash_free s x h
        have hTs := segAfter_shape s
        have hsplitS : (d :: segHead s) ++ segAfter s = d :: s := by
          rw [List.cons_append, segHead_append_segAfter]
        by_cases hAB : (c :: segHead p : List Char) = d :: segHead s
        · have hdrop : dropSeg (c :: segHead p) (dropSlashes str) = some (segAfter s) := by
            rw [hS, ← hsplitS, hAB]
            exact dropSeg_self _ _
          have hm : matchSeg (dropSlashes str) (c :: p)
              = some (segAfter s, segAfter p) := by
            rw [hmatch, hdrop]
          rw [hsegP, hsegS]
          simp only [leadsOf]
          have hbeq : ((c :: segHead p : List Char) == d :: segHead s) = true :=
            beq_iff_eq.mpr hAB
          rw [hbeq, Bool.true_and]
          rcases hTs' : segAfter s with _ | ⟨e, r⟩
          · rw [hTs'] at hm
            rw [hpp_some_nil str pfx c p _ hP hm]
            exact ih (segAfter p) [] hlenT
          · have he : e = '/' := by
              rcases hTs with h | ⟨r2, h⟩
              · rw [hTs'] at h; cases h
              · rw [hTs'] at h
                cases h
                rfl
            subst he
            rw [hTs'] at hm
            rw [hpp_some_slash str pfx c p r _ hP hm]
            exact ih (segAfter p) ('/' :: r) hlenT
        · rw [hsegP, hsegS]
          simp only [leadsOf]
          have hbeq : ((c :: segHead p : List Char) == d :: segHead s) = false := by
            simp only [beq_eq_false_iff_ne, ne_eq]
            exact hAB
          rw [hbeq, Bool.false_and]
          cases hdc : dropSeg (c :: segHead p) (dropSlashes str) with
          | none =>
            have hm : matchSeg (dropSlashes str) (c :: p) = none := by
              rw [hmatch, hdc]
            rw [hpp_none_case str pfx c p hP hm]
          | some s2 =>
            have hm : matchSeg (dropSlashes str) (c :: p)
                = some (s2, segAfter p) := by
              rw [hmatch, hdc]
            have heq : d :: s = (c :: segHead p) ++ s2 := by
              rw [← hS]
              exact dropSeg_eq_some _ _ _ hdc
            cases s2 with
            | nil =>
              exfalso
              rw [List.append_nil] at heq
              rw [← hsplitS] at heq
              rcases hTs with h | ⟨u, h⟩
              · rw [h, List.append_nil] at heq
                exact hAB heq.symm
              · rw [h] at heq
                have hmem : '/' ∈ c :: segHead p := by
                  rw [← heq]
                  exact List.mem_append_right _ (List.mem_cons_self _ _)
                exact hApfree '/' hmem rfl
            | cons e w =>
              by_cases he : e = '/'
              · exfalso
                subst he
                rw [← hsplitS] at heq
                rcases hTs with h | ⟨u, h⟩
                · rw [h, List.append_nil] at heq
                  have hmem : '/' ∈ d :: segHead s := by
                    rw [heq]
                    exact List.mem_append_right _ (List.mem_cons_self _ _)
                  exact hAsfree '/' hmem rfl
                · rw [h] at heq
                  have := slash_free_append_inj _ _ _ _ hAsfree hApfree heq
                  exact hAB this.1.symm
              · rw [hpp_some_other str pfx c e p w _ he hP hm]

theorem make_sign_blob_reg (rel content : List Nat) :
    make_sign_blob rel S_IFREG content = some (0 :: (rel ++ 0 :: content)) := by
  simp [make_sign_blob]

theorem make_sign_blob_lnk (rel content : List Nat) :
    make_sign_blob rel S_IFLNK content = some (1 :: (rel ++ 0 :: content)) := by
  have h : S_IFLNK ≠ S_IFREG := by decide
  simp [make_sign_blob, h]

theorem make_sign_blob_none {t : Nat} (h1 : t ≠ S_IFREG) (h2 : t ≠ S_IFLNK)
    (rel content : List Nat) : make_sign_blob rel t content = none := by
  simp [make_sign_blob, h1, h2]

/-- C1: blob construction is a pure deterministic function returning
exactly `[type_tag] ++ rel_path ++ [0x00] ++ content` with tag `0x00`
for a regular file and `0x01` for a symlink; it fails exactly when the
entry type is neither regular file nor symlink; equal inputs give
byte-identical output. -/
theorem c1_make_sign_blob_layout :
    (∀ rel content : List Nat,
        make_sign_blob rel S_IFREG content = some ([0] ++ rel ++ [0] ++ content)) ∧
    (∀ rel content : List Nat,
        make_sign_blob rel S_IFLNK content = some ([1] ++ rel ++ [0] ++ content)) ∧
    (∀ (rel content : List Nat) (t : Nat),
        make_sign_blob rel t content = none ↔ t ≠ S_IFREG ∧ t ≠ S_IFLNK) ∧
    (∀ (rel rel2 content content2 : List Nat) (t t2 : Nat),
        rel = rel2 → t = t2 → content = content2 →
        make_sign_blob rel t content = make_sign_blob rel2 t2 content2) := by
  refine ⟨?_, ?_, ?_, ?_⟩
  · intro rel content
    rw [make_sign_blob_reg]
    simp
  · intro rel content
    rw [make_sign_blob_lnk]
    simp
  · intro rel content t
    constructor
    · intro h
      by_cases h1 : t = S_IFREG
      · rw [h1, make_sign_blob_reg] at h
        cases h
      · by_cases h2 : t = S_IFLNK
        · rw [h2, make_sign_blob_lnk] at h
          cases h
        · exact ⟨h1, h2⟩
    · intro h
      exact make_sign_blob_none h.1 h.2 rel content
  · intro rel rel2 content content2 t t2 h1 h2 h3
    rw [h1, h2, h3]

/-- Witness for C1 at concrete inputs. -/
theorem c1_make_sign_blob_layout_witness :
    make_sign_blob [97] S_IFREG [7] = some [0, 97, 0, 7]
    ∧ make_sign_blob [97] S_IFLNK [7] = some [1, 97, 0, 7]
    ∧ make_sign_blob [97] S_IFDIR [7] = none :=
  ⟨c1_make_sign_blob_layout.1 [97] [7],
   c1_make_sign_blob_layout.2.1 [97] [7],
   (c1_make_sign_blob_layout.2.2.1 [97] [7] S_IFDIR).mpr ⟨by decide, by decide⟩⟩

/-- Lists with a reserved separator element occurring in neither left
part split uniquely at the separator. -/
theorem sep_append_inj {sep : Nat} :
    ∀ a b u w : List Nat, sep ∉ a → sep ∉ b →
      a ++ sep :: u = b ++ sep :: w → a = b ∧ u = w := by
  intro a
  induction a with
  | nil =>
    intro b u w _ hb h
    cases b with
    | nil => simpa using h
    | cons y b' =>
      simp only [List.nil_append, List.cons_append, List.cons.injEq] at h
      exact absurd (h.1 ▸ List.mem_cons_self y b') hb
  | cons x a' ih =>
    intro b u w ha hb h
    cases b with
    | nil =>
      simp only [List.cons_append, List.nil_append, List.cons.injEq] at h
      exact absurd (h.1 ▸ List.mem_cons_self x a') ha
    | cons y b' =>
      simp only [List.cons_append, List.cons.injEq] at h
      have ha' : sep ∉ a' := fun hx => ha (List.mem_cons_of_mem x hx)
      have hb' : sep ∉ b' := fun hx => hb (List.mem_cons_of_mem y hx)
      have := ih b' u w ha' hb' h.2
      exact ⟨by rw [h.1, this.1], this.2⟩

/-- C10: on its supported domain (regular file or symlink, NUL-free
relative path) `make_sign_blob` is injective: byte-identical blobs force
equal type, path and content. -/
theorem c10_make_sign_blob_injective
    (t1 t2 : Nat) (r1 r2 c1 c2 b : List Nat)
    (ht1 : t1 = S_IFREG ∨ t1 = S_IFLNK) (ht2 : t2 = S_IFREG ∨ t2 = S_IFLNK)
    (hr1 : 0 ∉ r1) (hr2 : 0 ∉ r2)
    (h1 : make_sign_blob r1 t1 c1 = some b) (h2 : make_sign_blob r2 t2 c2 = some b) :
    t1 = t2 ∧ r1 = r2 ∧ c1 = c2 := by
  rcases ht1 with h | h <;> rcases ht2 with h' | h' <;> subst h <;> subst h'
  · rw [make_sign_blob_reg] at h1 h2
    rw [← h2] at h1
    simp only [Option.some.injEq, List.cons.injEq] at h1
    have := sep_append_inj r1 r2 c1 c2 hr1 hr2 h1.2
    exact ⟨rfl, this⟩
  · rw [make_sign_blob_reg] at h1
    rw [make_sign_blob_lnk] at h2
    rw [← h2] at h1
    simp at h1
  · rw [make_sign_blob_lnk] at h1
    rw [make_sign_blob_reg] at h2
    rw [← h2] at h1
    simp at h1
  · rw [make_sign_blob_lnk] at h1 h2
    rw [← h2] at h1
    simp only [Option.some.injEq, List.cons.injEq] at h1
    have := sep_append_inj r1 r2 c1 c2 hr1 hr2 h1.2
    exact ⟨rfl, this⟩

/-- Witness for C10 at concrete inputs. -/
theorem c10_make_sign_blob_injective_witness :
    (S_IFREG = S_IFREG ∧ [97] = ([97] : List Nat) ∧ [7] = ([7] : List Nat)) :=
  c10_make_sign_blob_injective S_IFREG S_IFREG [97] [97] [7] [7] [0, 97, 0, 7]
    (Or.inl rfl) (Or.inl rfl) (by decide) (by decide) (by decide) (by decide)

/-- A public key whose engine calls behave like a real verifier:
context allocation and init succeed, and `EVP_DigestVerify` answers
only 1 (valid) or 0 (mismatch). -/
def wellBehavedKey (k : PubKey) : Prop :=
  k.ctxFails = false ∧ k.initFails = false ∧
    ∀ s m : List Nat, k.verify s m = 1 ∨ k.verify s m = 0

theorem validate_keys_loop_nil (sigb blob : List Nat) :
    validate_keys_loop sigb blob [] = .ok false := rfl

theorem validate_keys_loop_cons_ok {k : PubKey} (sigb blob : List Nat)
    (hctx : k.ctxFails = false) (hinit : k.initFails = false)
    (hv : k.verify sigb blob = 1) (rest : List PubKey) :
    validate_keys_loop sigb blob (k :: rest) = .ok true := by
  simp [validate_keys_loop, hctx, hinit, hv]

theorem validate_keys_loop_cons_miss {k : PubKey} (sigb blob : List Nat)
    (hctx : k.ctxFails = false) (hinit : k.initFails = false)
    (hv : k.verify sigb blob = 0) (rest : List PubKey) :
    validate_keys_loop sigb blob (k :: rest) = validate_keys_loop sigb blob rest := by
  simp [validate_keys_loop, hctx, hinit, hv]

theorem validate_keys_loop_cons_hard {k : PubKey} (sigb blob : List Nat)
    (h : k.ctxFails = true ∨ k.initFails = true
        ∨ (k.verify sigb blob ≠ 1 ∧ k.verify sigb blob ≠ 0)) (rest : List PubKey) :
    validate_keys_loop sigb blob (k :: rest) = .error .engine := by
  rcases h with h | h | ⟨h1, h0⟩
  · simp [validate_keys_loop, h]
  · cases hctx : k.ctxFails
    · simp [validate_keys_loop, hctx, h]
    · simp [validate_keys_loop, hctx]
  · cases hctx : k.ctxFails
    · cases hinit : k.initFails
      · simp [validate_keys_loop, hctx, hinit, h1, h0]
      · simp [validate_keys_loop, hctx, hinit]
    · simp [validate_keys_loop, hctx]

theorem validate_keys_loop_all_miss (sigb blob : List Nat) :
    ∀ keys : List PubKey,
      (∀ k ∈ keys, wellBehavedKey k ∧ k.verify sigb blob = 0) →
      validate_keys_loop sigb blob keys = .ok false := by
  intro keys
  induction keys with
  | nil => intro _; rfl
  | cons k rest ih =>
    intro h
    have hk := h k (List.mem_cons_self k rest)
    rw [validate_keys_loop_cons_miss sigb blob hk.1.1 hk.1.2.1 hk.2]
    exact ih fun k2 hk2 => h k2 (List.mem_cons_of_mem k hk2)

theorem validate_keys_loop_skip_miss (sigb blob : List Nat) :
    ∀ ks1 rest : List PubKey,
      (∀ k ∈ ks1, wellBehavedKey k ∧ k.verify sigb blob = 0) →
      validate_keys_loop sigb blob (ks1 ++ rest) = validate_keys_loop sigb blob rest := by
  intro ks1
  induction ks1 with
  | nil => intro rest _; rfl
  | cons k ks ih =>
    intro rest h
    have hk := h k (List.mem_cons_self k ks)
    rw [List.cons_append, validate_keys_loop_cons_miss sigb blob hk.1.1 hk.1.2.1 hk.2]
    exact ih rest fun k2 hk2 => h k2 (List.mem_cons_of_mem k hk2)

theorem validate_keys_loop_first_match (sigb blob : List Nat) :
    ∀ keys : List PubKey, (∀ k ∈ keys, wellBehavedKey k) →
      (∃ k ∈ keys, k.verify sigb blob = 1) →
      validate_keys_loop sigb blob keys = .ok true := by
  intro keys
  induction keys with
  | nil =>
    intro _ hex
    simp at hex
  | cons k rest ih =>
    intro hwb hex
    have hk := hwb k (List.mem_cons_self k rest)
    by_cases hv : k.verify sigb blob = 1
    · exact validate_keys_loop_cons_ok sigb blob hk.1 hk.2.1 hv rest
    · have hv0 : k.verify sigb blob = 0 := by
        rcases hk.2.2 sigb blob with h | h
        · exact absurd h hv
        · exact h
      rw [validate_keys_loop_cons_miss sigb blob hk.1 hk.2.1 hv0]
      apply ih (fun k2 hk2 => hwb k2 (List.mem_cons_of_mem k hk2))
      rcases hex with ⟨k2, hk2, hval⟩
      rcases List.mem_cons.mp hk2 with h | h
      · subst h
        exact absurd hval hv
      · exact ⟨k2, h, hval⟩

/-- `validate_data` on a well-formed envelope `MAGIC ++ body` reduces to
the key-trial loop over the stripped body and the rebuilt blob. -/
theorem validate_data_magic_ok (rel : List Nat) (t : Nat) (content body blob : List Nat)
    (hblob : make_sign_blob rel t content = some blob) (keys : List PubKey) :
    validate_data rel t content (VALIDATOR_SIGNATURE_MAGIC ++ body) keys
      = validate_keys_loop body blob keys := by
  have hlen : (VALIDATOR_SIGNATURE_MAGIC ++ body).length
      = VALIDATOR_SIGNATURE_MAGIC_LEN + body.length := by
    simp [VALIDATOR_SIGNATURE_MAGIC_LEN]
  have htake : (VALIDATOR_SIGNATURE_MAGIC ++ body).take VALIDATOR_SIGNATURE_MAGIC_LEN
      = VALIDATOR_SIGNATURE_MAGIC := List.take_left _ _
  have hdrop : (VALIDATOR_SIGNATURE_MAGIC ++ body).drop VALIDATOR_SIGNATURE_MAGIC_LEN
      = body := List.drop_left _ _
  rw [validate_data]
  rw [if_neg]
  · rw [hdrop, hblob]
  · intro h
    rcases h with h | h
    · rw [hlen] at h
      omega
    · exact h htake

/-- C2: round-trip — for a regular file or symlink, with a well-behaved
trusted key set containing the public key matching the signing private
key (and a signing engine that succeeds), verification of the envelope
produced by `sign_data` on unchanged type, path and content returns
true; the envelope is exactly the magic marker followed by the raw
signature over the shared blob, and the verifier strips exactly that
marker. -/
theorem c2_sign_validate_roundtrip
    (t : Nat) (rel content blob : List Nat) (priv : PrivKey) (pub : PubKey)
    (keys : List PubKey)
    (hblob : make_sign_blob rel t content = some blob)
    (hpriv : priv.ctxFails = false ∧ priv.initFails = false
        ∧ priv.sizeFails = false ∧ priv.signFails = false)
    (hkeys : ∀ k ∈ keys, wellBehavedKey k)
    (hmem : pub ∈ keys)
    (hverifies : pub.verify (priv.sign blob) blob = 1) :
    sign_data t rel content priv = .ok (VALIDATOR_SIGNATURE_MAGIC ++ priv.sign blob)
    ∧ (VALIDATOR_SIGNATURE_MAGIC ++ priv.sign blob).take VALIDATOR_SIGNATURE_MAGIC_LEN
        = VALIDATOR_SIGNATURE_MAGIC
    ∧ (VALIDATOR_SIGNATURE_MAGIC ++ priv.sign blob).drop VALIDATOR_SIGNATURE_MAGIC_LEN
        = priv.sign blob
    ∧ validate_data rel t content (VALIDATOR_SIGNATURE_MAGIC ++ priv.sign blob) keys
        = .ok true := by
  refine ⟨?_, List.take_left _ _, List.drop_left _ _, ?_⟩
  · rw [sign_data, hblob]
    simp [hpriv.1, hpriv.2.1, hpriv.2.2.1, hpriv.2.2.2]
  · rw [validate_data_magic_ok rel t content (priv.sign blob) blob hblob keys]
    exact validate_keys_loop_first_match (priv.sign blob) blob keys hkeys
      ⟨pub, hmem, hverifies⟩

/-- Witness for C2 at concrete inputs: a one-key scheme in which the
signature over a message is the message itself and verification checks
that equality. -/
theorem c2_sign_validate_roundtrip_witness :
    sign_data S_IFREG [97] [7]
        ⟨false, false, false, false, fun m => m⟩
      = .ok (VALIDATOR_SIGNATURE_MAGIC ++ [0, 97, 0, 7])
    ∧ validate_data [97] S_IFREG [7] (VALIDATOR_SIGNATURE_MAGIC ++ [0, 97, 0, 7])
        [⟨false, false, fun s m => if s = m then 1 else 0⟩]
      = .ok true := by
  have h := c2_sign_validate_roundtrip S_IFREG [97] [7] [0, 97, 0, 7]
    ⟨false, false, false, false, fun m => m⟩
    ⟨false, false, fun s m => if s = m then 1 else 0⟩
    [⟨false, false, fun s m => if s = m then 1 else 0⟩]
    (by decide)
    ⟨rfl, rfl, rfl, rfl⟩
    (by
      intro k hk
      simp only [List.mem_singleton] at hk
      subst hk
      refine ⟨rfl, rfl, ?_⟩
      intro s m
      by_cases hsm : s = m
      · simp [hsm]
      · simp [hsm])
    (List.mem_singleton.mpr rfl)
    (by simp)
  exact ⟨h.1, h.2.2.2⟩

/-- C3: verifier behaviour — an envelope shorter than the magic marker,
or with a non-matching prefix, is rejected as `Invalid signature`
uniformly for every key list (no key trial); otherwise the marker is
stripped, the blob rebuilt, and the keys tried in order: the first
validating key yields true regardless of what follows it, keys that
merely fail to validate are passed over, a context/init failure or an
`EVP_DigestVerify` result other than 0 or 1 at any tried key is a hard
error, and if every key merely fails to validate the result is false
with no error. -/
theorem c3_validate_data_behavior :
    (∀ (rel : List Nat) (t : Nat) (content sig : List Nat) (keys : List PubKey),
        sig.length < VALIDATOR_SIGNATURE_MAGIC_LEN →
        validate_data rel t content sig keys = .error .invalidSig) ∧
    (∀ (rel : List Nat) (t : Nat) (content sig : List Nat) (keys : List PubKey),
        sig.take VALIDATOR_SIGNATURE_MAGIC_LEN ≠ VALIDATOR_SIGNATURE_MAGIC →
        validate_data rel t content sig keys = .error .invalidSig) ∧
    (∀ (rel : List Nat) (t : Nat) (content body blob : List Nat)
        (ks1 ks2 : List PubKey) (k : PubKey),
        make_sign_blob rel t content = some blob →
        (∀ k2 ∈ ks1, wellBehavedKey k2 ∧ k2.verify body blob = 0) →
        k.ctxFails = false → k.initFails = false → k.verify body blob = 1 →
        validate_data rel t content (VALIDATOR_SIGNATURE_MAGIC ++ body)
          (ks1 ++ k :: ks2) = .ok true) ∧
    (∀ (rel : List Nat) (t : Nat) (content body blob : List Nat)
        (keys : List PubKey),
        make_sign_blob rel t content = some blob →
        (∀ k ∈ keys, wellBehavedKey k ∧ k.verify body blob = 0) →
        validate_data rel t content (VALIDATOR_SIGNATURE_MAGIC ++ body) keys
          = .ok false) ∧
    (∀ (rel : List Nat) (t : Nat) (content body blob : List Nat)
        (ks1 ks2 : List PubKey) (k : PubKey),
        make_sign_blob rel t content = some blob →
        (∀ k2 ∈ ks1, wellBehavedKey k2 ∧ k2.verify body blob = 0) →
        (k.ctxFails = true ∨ k.initFails = true
          ∨ (k.verify body blob ≠ 1 ∧ k.verify body blob ≠ 0)) →
        validate_data rel t content (VALIDATOR_SIGNATURE_MAGIC ++ body)
          (ks1 ++ k :: ks2) = .error .engine) := by
  refine ⟨?_, ?_, ?_, ?_, ?_⟩
  · intro rel t content sig keys h
    rw [validate_data, if_pos (Or.inl h)]
  · intro rel t content sig keys h
    rw [validate_data, if_pos (Or.inr h)]
  · intro rel t content body blob ks1 ks2 k hblob hks1 hctx hinit hv
    rw [validate_data_magic_ok rel t content body blob hblob]
    rw [validate_keys_loop_skip_miss body blob ks1 (k :: ks2) hks1]
    exact validate_keys_loop_cons_ok body blob hctx hinit hv ks2
  · intro rel t content body blob keys hblob hkeys
    rw [validate_data_magic_ok rel t content body blob hblob]
    exact validate_keys_loop_all_miss body blob keys hkeys
  · intro rel t content body blob ks1 ks2 k hblob hks1 hhard
    rw [validate_data_magic_ok rel t content body blob hblob]
    rw [validate_keys_loop_skip_miss body blob ks1 (k :: ks2) hks1]
    exact validate_keys_loop_cons_hard body blob hhard ks2

/-- Witness for C3 at concrete inputs: a short envelope is rejected, a
wrong-prefix envelope is rejected, a second matching key wins after a
first mismatching key, an all-mismatch key list gives false without
error, and a key whose verify primitive reports an engine error gives a
hard error. -/
theorem c3_validate_data_behavior_witness :
    validate_data [97] S_IFREG [7] [0x76] [] = .error .invalidSig
    ∧ validate_data [97] S_IFREG [7] [9, 9, 9, 9, 9] [] = .error .invalidSig
    ∧ validate_data [97] S_IFREG [7] (VALIDATOR_SIGNATURE_MAGIC ++ [5])
        [⟨false, false, fun _ _ => 0⟩, ⟨false, false, fun _ _ => 1⟩] = .ok true
    ∧ validate_data [97] S_IFREG [7] (VALIDATOR_SIGNATURE_MAGIC ++ [5])
        [⟨false, false, fun _ _ => 0⟩] = .ok false
    ∧ validate_data [97] S_IFREG [7] (VALIDATOR_SIGNATURE_MAGIC ++ [5])
        [⟨false, false, fun _ _ => 0⟩, ⟨false, false, fun _ _ => -1⟩]
        = .error .engine := by
  refine ⟨?_, ?_, ?_, ?_, ?_⟩
  · exact c3_validate_data_behavior.1 [97] S_IFREG [7] [0x76] [] (by decide)
  · exact c3_validate_data_behavior.2.1 [97] S_IFREG [7] [9, 9, 9, 9, 9] [] (by decide)
  · exact c3_validate_data_behavior.2.2.1 [97] S_IFREG [7] [5] [0, 97, 0, 7]
      [⟨false, false, fun _ _ => 0⟩] [] ⟨false, false, fun _ _ => 1⟩
      (by decide)
      (by
        intro k2 hk2
        simp only [List.mem_singleton] at hk2
        subst hk2
        exact ⟨⟨rfl, rfl, fun s m => Or.inr rfl⟩, rfl⟩)
      rfl rfl rfl
  · exact c3_validate_data_behavior.2.2.2.1 [97] S_IFREG [7] [5] [0, 97, 0, 7]
      [⟨false, false, fun _ _ => 0⟩]
      (by decide)
      (by
        intro k hk
        simp only [List.mem_singleton] at hk
        subst hk
        exact ⟨⟨rfl, rfl, fun s m => Or.inr rfl⟩, rfl⟩)
  · exact c3_validate_data_behavior.2.2.2.2 [97] S_IFREG [7] [5] [0, 97, 0, 7]
      [⟨false, false, fun _ _ => 0⟩] [] ⟨false, false, fun _ _ => -1⟩
      (by decide)
      (by
        intro k2 hk2
        simp only [List.mem_singleton] at hk2
        subst hk2
        exact ⟨⟨rfl, rfl, fun s m => Or.inr rfl⟩, rfl⟩)
      (Or.inr (Or.inr ⟨by decide, by decide⟩))

/-- C5: `has_path_prefix` implements path-segment comparison, not string
prefix comparison — it returns true exactly when every path segment of
the second argument matches a whole corresponding segment of the first
argument in order, ignoring repeated slashes; in particular `/a/bcd` is
not under `/a/bc` while `/a/b/c` is under `/a/b`. -/
theorem c5_path_segment_scoping :
    (∀ str pfx : List Char, has_path_prefix str pfx = pathUnderSegments str pfx)
    ∧ has_path_prefix ['/', 'a', '/', 'b', 'c', 'd'] ['/', 'a', '/', 'b', 'c'] = false
    ∧ has_path_prefix ['/', 'a', '/', 'b', '/', 'c'] ['/', 'a', '/', 'b'] = true := by
  refine ⟨?_, ?_, ?_⟩
  · intro str pfx
    exact hpp_eq_leadsOf pfx.length pfx str le_rfl
  · rw [hpp_some_slash ['/', 'a', '/', 'b', 'c', 'd'] ['/', 'a', '/', 'b', 'c']
      'a' ['/', 'b', 'c'] ['b', 'c', 'd'] ['/', 'b', 'c'] (by decide) (by decide)]
    rw [hpp_some_other ['/', 'b', 'c', 'd'] ['/', 'b', 'c'] 'b' 'd' ['c'] [] []
      (by decide) (by decide) (by decide)]
  · rw [hpp_some_slash ['/', 'a', '/', 'b', '/', 'c'] ['/', 'a', '/', 'b']
      'a' ['/', 'b'] ['b', '/', 'c'] ['/', 'b'] (by decide) (by decide)]
    rw [hpp_some_slash ['/', 'b', '/', 'c'] ['/', 'b'] 'b' [] ['c'] []
      (by decide) (by decide)]
    exact hpp_nil_case ['/', 'c'] [] (by decide)

theorem load_keys_loop_append :
    ∀ entries rest acc, has_fatal_entry entries = false →
      load_keys_loop (entries ++ rest) acc
        = load_keys_loop rest ((accepted_keys entries).reverse ++ acc) := by
  intro entries
  induction entries with
  | nil =>
    intro rest acc _
    simp [accepted_keys]
  | cons e es ih =>
    intro rest acc hnf
    cases e with
    | ok k =>
      have hnf' : has_fatal_entry es = false := by
        simpa [has_fatal_entry] using hnf
      rw [List.cons_append]
      rw [show load_keys_loop ((Except.ok k) :: (es ++ rest)) acc
          = load_keys_loop (es ++ rest) (k :: acc) from rfl]
      rw [ih rest (k :: acc) hnf']
      simp [accepted_keys]
    | error err =>
      cases err with
      | noent =>
        have hnf' : has_fatal_entry es = false := by
          simpa [has_fatal_entry] using hnf
        rw [List.cons_append]
        rw [show load_keys_loop ((Except.error LoadErr.noent) :: (es ++ rest)) acc
            = load_keys_loop (es ++ rest) acc from rfl]
        rw [ih rest acc hnf']
        simp [accepted_keys]
      | isdir =>
        have hnf' : has_fatal_entry es = false := by
          simpa [has_fatal_entry] using hnf
        rw [List.cons_append]
        rw [show load_keys_loop ((Except.error LoadErr.isdir) :: (es ++ rest)) acc
            = load_keys_loop (es ++ rest) acc from rfl]
        rw [ih rest acc hnf']
        simp [accepted_keys]
      | inval => simp [has_fatal_entry] at hnf
      | acces => simp [has_fatal_entry] at hnf

/-- C6 counterexample: a directory with one file that fails to parse as
a key (`G_FILE_ERROR_INVAL`).  The claim predicts the file is skipped
(yielding success with no keys); the code propagates the parse failure
as fatal. -/
theorem c6_counterexample :
    load_pub_keys_from_dir (.ok [.error .inval]) = .error .inval
    ∧ load_pub_keys_from_dir (.ok [.error .inval])
        ≠ (.ok [] : Except LoadErr (List PK)) :=
  ⟨rfl, fun h => Except.noConfusion h⟩

/-- C6 as amended: when loading trusted keys from a directory, an entry
whose load fails with not-found or is-a-directory is skipped and not
fatal, but a parse failure (or any other failure class) aborts the whole
load with that error even if all preceding entries were loadable; a
missing key directory yields the empty trusted key collection and
success, and any other directory-open failure is propagated. -/
theorem c6_key_loading_amended :
    load_pub_keys_from_dir (.error .noent) = .ok []
    ∧ (∀ rest acc, load_keys_loop (.error .noent :: rest) acc = load_keys_loop rest acc)
    ∧ (∀ rest acc, load_keys_loop (.error .isdir :: rest) acc = load_keys_loop rest acc)
    ∧ (∀ entries rest, has_fatal_entry entries = false →
        load_pub_keys_from_dir (.ok (entries ++ .error .inval :: rest)) = .error .inval)
    ∧ (∀ entries rest, has_fatal_entry entries = false →
        load_pub_keys_from_dir (.ok (entries ++ .error .acces :: rest)) = .error .acces)
    ∧ (∀ e : LoadErr, e ≠ .noent → load_pub_keys_from_dir (.error e) = .error e) := by
  refine ⟨rfl, fun _ _ => rfl, fun _ _ => rfl, ?_, ?_, ?_⟩
  · intro entries rest hnf
    rw [load_pub_keys_from_dir, load_keys_loop_append entries (.error .inval :: rest) [] hnf]
    rfl
  · intro entries rest hnf
    rw [load_pub_keys_from_dir, load_keys_loop_append entries (.error .acces :: rest) [] hnf]
    rfl
  · intro e he
    cases e with
    | noent => exact absurd rfl he
    | isdir => rfl
    | inval => rfl
    | acces => rfl

/-- Witness for C6's amended statement at concrete inputs. -/
theorem c6_key_loading_amended_witness :
    load_pub_keys_from_dir (.ok [.error .noent, .ok ⟨3⟩, .error .inval, .ok ⟨4⟩])
      = .error .inval
    ∧ load_pub_keys_from_dir (.error .acces) = .error .acces :=
  ⟨c6_key_loading_amended.2.2.2.1 [.error .noent, .ok ⟨3⟩] [.ok ⟨4⟩] rfl,
   c6_key_loading_amended.2.2.2.2.2 .acces (fun h => LoadErr.noConfusion h)⟩

/-- C7 counterexample: a directory enumerating key files 1 then 2.  The
claim predicts the returned collection `[1, 2]` (first enumerated
first); the code `g_list_prepend`s and never reverses, returning
`[2, 1]`. -/
theorem c7_counterexample :
    load_pub_keys_from_dir (.ok [.ok ⟨1⟩, .ok ⟨2⟩]) = .ok [⟨2⟩, ⟨1⟩]
    ∧ load_pub_keys_from_dir (.ok [.ok ⟨1⟩, .ok ⟨2⟩])
        ≠ (.ok [⟨1⟩, ⟨2⟩] : Except LoadErr (List PK)) := by
  refine ⟨rfl, ?_⟩
  intro h
  have h2 := Except.ok.inj h
  simp at h2

/-- C7 as amended: when every entry of the key directory either loads or
fails only with not-found/is-a-directory, the returned collection is the
*reverse* of enumeration order — the key parsed from the first
enumerated entry comes last; this list order is the order in which the
verifier tries keys. -/
theorem c7_key_order_amended :
    ∀ entries, has_fatal_entry entries = false →
      load_pub_keys_from_dir (.ok entries) = .ok (accepted_keys entries).reverse := by
  intro entries hnf
  rw [load_pub_keys_from_dir]
  have h := load_keys_loop_append entries [] [] hnf
  rw [List.append_nil] at h
  rw [h]
  simp [load_keys_loop]

/-- Witness for C7's amended statement at concrete inputs. -/
theorem c7_key_order_amended_witness :
    load_pub_keys_from_dir (.ok [.ok ⟨1⟩, .error .isdir, .ok ⟨2⟩, .ok ⟨3⟩])
      = .ok [⟨3⟩, ⟨2⟩, ⟨1⟩] := by
  have h := c7_key_order_amended [.ok ⟨1⟩, .error .isdir, .ok ⟨2⟩, .ok ⟨3⟩] rfl
  simpa [accepted_keys] using h

mutual

theorem walk_snd_indep (f g : List (List Char) → Bool) :
    ∀ (path : List (List Char)) (e : FSEntry), (walk f path e).2 = (walk g path e).2
  | _, .regular => rfl
  | _, .symlink => rfl
  | _, .dir .noent _ => rfl
  | _, .dir .err _ => rfl
  | path, .dir .ok children => walkChildren_snd_indep f g path children
  | _, .other => rfl
  | _, .missing => rfl

theorem walkChildren_snd_indep (f g : List (List Char) → Bool) :
    ∀ (path : List (List Char)) (cs : List (List Char × FSEntry)),
      (walk.walkChildren f path cs).2 = (walk.walkChildren g path cs).2
  | _, [] => rfl
  | path, (name, child) :: rest => by
    by_cases h : hasSigSuffix name
    · simp only [walk.walkChildren, h, if_pos]
      exact walkChildren_snd_indep f g path rest
    · simp only [walk.walkChildren, h, Bool.false_eq_true, not_false_iff, if_neg]
      rw [walk_snd_indep f g (path ++ [name]) child,
        walkChildren_snd_indep f g path rest]

end

theorem walkChildren_all (leaf : List (List Char) → Bool) (path : List (List Char)) :
    ∀ cs : List (List Char × FSEntry),
      (walk.walkChildren leaf path cs).1
        = cs.all fun nc => hasSigSuffix nc.1 || (walk leaf (path ++ [nc.1]) nc.2).1 := by
  intro cs
  induction cs with
  | nil => rfl
  | cons nc rest ih =>
    match nc with
    | (name, child) =>
      by_cases h : hasSigSuffix name
      · simp only [walk.walkChildren, h, if_pos, List.all_cons, Bool.true_or]
        exact ih
      · simp only [walk.walkChildren, h, Bool.false_eq_true, not_false_iff, if_neg,
          List.all_cons, Bool.false_or]
        rw [ih]

theorem cmd_walk_recursive_all (leaf : List (List Char) → Bool) :
    ∀ roots : List (List Char × FSEntry),
      (cmd_walk true leaf roots).1 = roots.all fun r => (walk leaf [r.1] r.2).1 := by
  intro roots
  induction roots with
  | nil => rfl
  | cons r rest ih =>
    match r with
    | (name, entry) =>
      simp only [cmd_walk, Bool.not_true, Bool.and_false, Bool.false_eq_true, not_false_iff,
        if_neg, List.all_cons]
      rw [ih]

theorem cmd_walk_files_all (leaf : List (List Char) → Bool) :
    ∀ roots : List (List Char × FSEntry),
      (∀ r ∈ roots, isDirNode r.2 = false) →
      (cmd_walk false leaf roots).1 = roots.all fun r => (walk leaf [r.1] r.2).1 := by
  intro roots
  induction roots with
  | nil => intro _; rfl
  | cons r rest ih =>
    intro h
    match r with
    | (name, entry) =>
      have hr : isDirNode entry = false := h (name, entry) (List.mem_cons_self _ _)
      simp only [cmd_walk, hr, Bool.false_and, Bool.false_eq_true, not_false_iff, if_neg,
        List.all_cons]
      rw [ih fun r2 hr2 => h r2 (List.mem_cons_of_mem _ hr2)]

theorem cmd_walk_snd_indep (f g : List (List Char) → Bool) (recursive : Bool) :
    ∀ roots : List (List Char × FSEntry),
      (cmd_walk recursive f roots).2 = (cmd_walk recursive g roots).2 := by
  intro roots
  induction roots with
  | nil => rfl
  | cons r rest ih =>
    match r with
    | (name, entry) =>
      by_cases h : (isDirNode entry && !recursive) = true
      · simp only [cmd_walk, if_pos h]
      · simp only [cmd_walk, if_neg h]
        rw [walk_snd_indep f g [name] entry, ih]

/-- C4: during a walk the result of a directory is the conjunction of
the results of all its visited (non-`.sig`) children, the result of a
whole recursive run is the conjunction of all root results (likewise a
non-recursive run over non-directory roots), and the set of leaves
attempted does not depend on the outcomes of the leaf actions — a
failing leaf never prevents siblings or the remaining roots from being
processed. -/
theorem c4_walk_aggregation :
    (∀ (leaf : List (List Char) → Bool) (path : List (List Char))
        (children : List (List Char × FSEntry)),
        (walk leaf path (.dir .ok children)).1
          = children.all fun nc => hasSigSuffix nc.1 || (walk leaf (path ++ [nc.1]) nc.2).1)
    ∧ (∀ (leaf : List (List Char) → Bool) (roots : List (List Char × FSEntry)),
        (cmd_walk true leaf roots).1 = roots.all fun r => (walk leaf [r.1] r.2).1)
    ∧ (∀ (leaf : List (List Char) → Bool) (roots : List (List Char × FSEntry)),
        (∀ r ∈ roots, isDirNode r.2 = false) →
        (cmd_walk false leaf roots).1 = roots.all fun r => (walk leaf [r.1] r.2).1)
    ∧ (∀ (f g : List (List Char) → Bool) (path : List (List Char)) (e : FSEntry),
        (walk f path e).2 = (walk g path e).2)
    ∧ (∀ (f g : List (List Char) → Bool) (recursive : Bool)
        (roots : List (List Char × FSEntry)),
        (cmd_walk recursive f roots).2 = (cmd_walk recursive g roots).2) :=
  ⟨fun leaf path children => walkChildren_all leaf path children,
   fun leaf roots => cmd_walk_recursive_all leaf roots,
   fun leaf roots h => cmd_walk_files_all leaf roots h,
   fun f g path e => walk_snd_indep f g path e,
   fun f g recursive roots => cmd_walk_snd_indep f g recursive roots⟩

/-- Witness for C4 at concrete inputs: a directory with one failing and
one succeeding leaf aggregates to false while both leaves are attempted,
and the attempted set is the same as with an all-succeeding action. -/
theorem c4_walk_aggregation_witness :
    (walk (fun q => decide (q = [['r'], ['a']])) [['r']]
        (.dir .ok [(['a'], FSEntry.regular), (['b'], FSEntry.regular)])).1
      = ([(['a'], FSEntry.regular), (['b'], FSEntry.regular)].all fun nc =>
          hasSigSuffix nc.1
            || (walk (fun q => decide (q = [['r'], ['a']])) ([['r']] ++ [nc.1]) nc.2).1)
    ∧ (cmd_walk false (fun _ => false)
          [(['a'], FSEntry.regular), (['b'], FSEntry.symlink)]).1
        = ([(['a'], FSEntry.regular), (['b'], FSEntry.symlink)].all fun r =>
            (walk (fun _ => false) [r.1] r.2).1)
    ∧ (walk (fun _ => false) [['r']]
          (.dir .ok [(['a'], FSEntry.regular), (['b'], FSEntry.regular)])).2
        = (walk (fun _ => true) [['r']]
            (.dir .ok [(['a'], FSEntry.regular), (['b'], FSEntry.regular)])).2 :=
  ⟨c4_walk_aggregation.1 (fun q => decide (q = [['r'], ['a']])) [['r']]
      [(['a'], FSEntry.regular), (['b'], FSEntry.regular)],
   c4_walk_aggregation.2.2.1 (fun _ => false)
      [(['a'], FSEntry.regular), (['b'], FSEntry.symlink)]
      (by
        intro r hr
        rcases List.mem_cons.mp hr with h | h
        · rw [h]; rfl
        · rcases List.mem_cons.mp h with h2 | h2
          · rw [h2]; rfl
          · cases h2),
   c4_walk_aggregation.2.2.2.1 (fun _ => false) (fun _ => true) [['r']]
      (.dir .ok [(['a'], FSEntry.regular), (['b'], FSEntry.regular)])⟩

/-- C8 counterexample: a root directory whose child directory `d`
vanishes between `lstat` and `g_dir_open` (NOENT on open).  The claim
predicts a visit failure for the subdirectory entry, making the parent's
aggregate false; the code returns success for the whole walk. -/
theorem c8_counterexample :
    (walk (fun _ => false) [['r']]
        (.dir .ok [(['d'], FSEntry.dir .noent [])])).1 = true := rfl

/-- C8 as amended: a directory-not-found condition when opening a
directory for enumeration is tolerated as success at *every* depth —
for the root of the walk and equally for any subdirectory reached
during recursion; what is a visit failure at any depth is a path whose
`lstat` fails. -/
theorem c8_noent_tolerance_amended :
    (∀ (leaf : List (List Char) → Bool) (path : List (List Char))
        (children : List (List Char × FSEntry)),
        walk leaf path (.dir .noent children) = (true, []))
    ∧ (∀ (leaf : List (List Char) → Bool) (path : List (List Char)),
        walk leaf path .missing = (false, []))
    ∧ (∀ (leaf : List (List Char) → Bool) (path : List (List Char))
        (name : List Char) (children : List (List Char × FSEntry))
        (rest : List (List Char × FSEntry)), hasSigSuffix name = false →
        (walk leaf path (.dir .ok ((name, FSEntry.dir .noent children) :: rest))).1
          = (walk leaf path (.dir .ok rest)).1)
    ∧ (∀ (leaf : List (List Char) → Bool) (path : List (List Char))
        (name : List Char) (rest : List (List Char × FSEntry)),
        hasSigSuffix name = false →
        (walk leaf path (.dir .ok ((name, FSEntry.missing) :: rest))).1 = false) := by
  refine ⟨fun _ _ _ => rfl, fun _ _ => rfl, ?_, ?_⟩
  · intro leaf path name children rest h
    show (walk.walkChildren leaf path ((name, FSEntry.dir .noent children) :: rest)).1 = _
    simp only [walk.walkChildren, h, Bool.false_eq_true, not_false_iff, if_neg]
    rfl
  · intro leaf path name rest h
    show (walk.walkChildren leaf path ((name, FSEntry.missing) :: rest)).1 = false
    simp only [walk.walkChildren, h, Bool.false_eq_true, not_false_iff, if_neg]
    rfl

/-- Witness for C8's amended statement at concrete inputs. -/
theorem c8_noent_tolerance_amended_witness :
    (walk (fun _ => false) [['r']]
        (.dir .ok [(['d'], FSEntry.dir .noent []), (['x'], FSEntry.regular)])).1
      = (walk (fun _ => false) [['r']] (.dir .ok [(['x'], FSEntry.regular)])).1
    ∧ (walk (fun _ => true) [['r']]
        (.dir .ok [(['m'], FSEntry.missing)])).1 = false :=
  ⟨c8_noent_tolerance_amended.2.2.1 (fun _ => false) [['r']] ['d'] []
      [(['x'], FSEntry.regular)] (by decide),
   c8_noent_tolerance_amended.2.2.2 (fun _ => true) [['r']] ['m'] [] (by decide)⟩

mutual

theorem walk_visited_last (leaf : List (List Char) → Bool) :
    ∀ (path : List (List Char)) (e : FSEntry) (q : List (List Char)),
      q ∈ (walk leaf path e).2 →
      q = path ∨ ∃ last, q.getLast? = some last ∧ hasSigSuffix last = false
  | path, .regular, q => by
    intro hq
    simp only [walk] at hq
    rcases List.mem_singleton.mp hq with h
    exact Or.inl h
  | path, .symlink, q => by
    intro hq
    simp only [walk] at hq
    rcases List.mem_singleton.mp hq with h
    exact Or.inl h
  | path, .dir .noent _, q => by
    intro hq
    simp only [walk] at hq
    cases hq
  | path, .dir .err _, q => by
    intro hq
    simp only [walk] at hq
    cases hq
  | path, .dir .ok children, q => by
    intro hq
    exact Or.inr (walkChildren_visited_last leaf path children q hq)
  | path, .other, q => by
    intro hq
    simp only [walk] at hq
    cases hq
  | path, .missing, q => by
    intro hq
    simp only [walk] at hq
    cases hq

theorem walkChildren_visited_last (leaf : List (List Char) → Bool) :
    ∀ (path : List (List Char)) (cs : List (List Char × FSEntry)) (q : List (List Char)),
      q ∈ (walk.walkChildren leaf path cs).2 →
      ∃ last, q.getLast? = some last ∧ hasSigSuffix last = false
  | path, [], q => by
    intro hq
    simp only [walk.walkChildren] at hq
    cases hq
  | path, (name, child) :: rest, q => by
    intro hq
    by_cases h : hasSigSuffix name
    · simp only [walk.walkChildren, h, if_pos] at hq
      exact walkChildren_visited_last leaf path rest q hq
    · simp only [walk.walkChildren, h, Bool.false_eq_true, not_false_iff, if_neg] at hq
      rcases List.mem_append.mp hq with hq1 | hq2
      · rcases walk_visited_last leaf (path ++ [name]) child q hq1 with heq | hgood
        · refine ⟨name, ?_, by simpa using h⟩
          rw [heq]
          exact List.getLast?_concat path
        · exact hgood
      · exact walkChildren_visited_last leaf path rest q hq2

end

theorem cmd_walk_visited_last (recursive : Bool) (leaf : List (List Char) → Bool) :
    ∀ (roots : List (List Char × FSEntry)) (q : List (List Char)),
      q ∈ (cmd_walk recursive leaf roots).2 →
      (∃ r ∈ roots, q = [r.1])
        ∨ ∃ last, q.getLast? = some last ∧ hasSigSuffix last = false := by
  intro roots
  induction roots with
  | nil =>
    intro q hq
    simp only [cmd_walk] at hq
    cases hq
  | cons r rest ih =>
    intro q hq
    match r with
    | (name, entry) =>
      by_cases h : (isDirNode entry && !recursive) = true
      · simp only [cmd_walk, h, if_pos] at hq
        cases hq
      · simp only [cmd_walk, h, not_false_iff, if_neg] at hq
        rcases List.mem_append.mp hq with hq1 | hq2
        · rcases walk_visited_last leaf [name] entry q hq1 with heq | hgood
          · exact Or.inl ⟨(name, entry), List.mem_cons_self _ _, heq⟩
          · exact Or.inr hgood
        · rcases ih q hq2 with ⟨r2, hr2, heq⟩ | hgood
          · exact Or.inl ⟨r2, List.mem_cons_of_mem _ hr2, heq⟩
          · exact Or.inr hgood

/-- C9 counterexample: a run whose root argument is itself a regular
file named `a.sig`.  The claim predicts that no file whose name ends in
`.sig` is ever signed or verified in a run; the code only filters the
suffix during directory enumeration, so this root is processed as a
leaf. -/
theorem c9_counterexample :
    (cmd_walk true (fun _ => true) [(['a', '.', 's', 'i', 'g'], FSEntry.regular)]).2
      = [[['a', '.', 's', 'i', 'g']]]
    ∧ hasSigSuffix ['a', '.', 's', 'i', 'g'] = true := ⟨rfl, by decide⟩

/-- C9 as amended: every leaf processed in a run either is a root
argument itself (which is processed even if its name ends in `.sig`) or
was reached through directory enumeration, in which case its name never
carries the `.sig` suffix — enumeration always skips such names, so no
envelope file below a directory is ever treated as a leaf or recursed
into. -/
theorem c9_sig_exclusion_amended :
    (∀ (leaf : List (List Char) → Bool) (path : List (List Char)) (e : FSEntry)
        (q : List (List Char)), q ∈ (walk leaf path e).2 →
        q = path ∨ ∃ last, q.getLast? = some last ∧ hasSigSuffix last = false)
    ∧ (∀ (recursive : Bool) (leaf : List (List Char) → Bool)
        (roots : List (List Char × FSEntry)) (q : List (List Char)),
        q ∈ (cmd_walk recursive leaf roots).2 →
        (∃ r ∈ roots, q = [r.1])
          ∨ ∃ last, q.getLast? = some last ∧ hasSigSuffix last = false) :=
  ⟨fun leaf path e q hq => walk_visited_last leaf path e q hq,
   fun recursive leaf roots q hq => cmd_walk_visited_last recursive leaf roots q hq⟩

/-- Witness for C9's amended statement at concrete inputs. -/
theorem c9_sig_exclusion_amended_witness :
    ([['r'], ['a']] = [['r']]
      ∨ ∃ last, ([['r'], ['a']] : List (List Char)).getLast? = some last
          ∧ hasSigSuffix last = false)
    ∧ ((∃ r ∈ [(['a', '.', 's', 'i', 'g'], FSEntry.regular)],
          [['a', '.', 's', 'i', 'g']] = [r.1])
        ∨ ∃ last, ([['a', '.', 's', 'i', 'g']] : List (List Char)).getLast? = some last
            ∧ hasSigSuffix last = false) :=
  ⟨c9_sig_exclusion_amended.1 (fun _ => true) [['r']]
      (.dir .ok [(['a'], FSEntry.regular)]) [['r'], ['a']] (by decide),
   c9_sig_exclusion_amended.2 true (fun _ => true)
      [(['a', '.', 's', 'i', 'g'], FSEntry.regular)] [['a', '.', 's', 'i', 'g']]
      (by decide)⟩
